import Mathlib

/-!
Verification of the archive deduplication tool (dedup-archive).

The program parses a BSD ar archive, drops the first occurrence of each
duplicated candidate object name, and repacks the survivors with an external
archiver.  Bytes are modelled as natural numbers, decoded names as lists of
Unicode code points, and the orchestration (main) as a function from an
abstract world (argument count, input bytes, pre-existing output file, and
outcomes of the external cp and ar commands) to an abstract run result.
-/

deriving instance DecidableEq for Except

set_option maxRecDepth 40000

namespace Phemy

/-- A decoded member name: a list of Unicode code points. -/
abbrev Name := List Nat

/-- Code points of the whitespace characters stripped by the string strip
operation (tab, LF, VT, FF, CR, FS, GS, RS, US, space). -/
def pyWs (c : Nat) : Bool :=
  c == 9 || c == 10 || c == 11 || c == 12 || c == 13 ||
  c == 28 || c == 29 || c == 30 || c == 31 || c == 32

/-- Remove trailing elements satisfying p. -/
def rstrip (p : Nat → Bool) (l : List Nat) : List Nat :=
  (l.reverse.dropWhile p).reverse

/-- Strip leading and trailing whitespace (the strip method on text). -/
def stripWs (l : List Nat) : List Nat :=
  rstrip pyWs (l.dropWhile pyWs)

/-- Remove trailing slash characters (rstrip applied to the name field). -/
def rstripSlash (l : List Nat) : List Nat :=
  rstrip (fun c => c == 47) l

/-- Remove trailing NUL bytes (rstrip applied to the extended-name bytes). -/
def rstripNul (l : List Nat) : List Nat :=
  rstrip (fun c => c == 0) l

/-- Strict ASCII decoding: fails (like a decode error) when a byte is not
below 128, otherwise the bytes are the code points. -/
def decodeAscii (bs : List Nat) : Option Name :=
  if bs.all (fun b => decide (b < 128)) then some bs else none

/-- Permissive ASCII decoding: undecodable bytes become the replacement
character U+FFFD instead of failing. -/
def decodeReplace (bs : List Nat) : Name :=
  bs.map (fun b => if b < 128 then b else 65533)

/-- Decimal digit test on a code point. -/
def isDigit (c : Nat) : Bool :=
  decide (48 ≤ c) && decide (c ≤ 57)

/-- Parse a nonempty all-digit code point list as a natural number; any other
shape fails (like an int conversion error). -/
def parseNatDigits (l : List Nat) : Option Nat :=
  if l.isEmpty then none
  else if l.all isDigit then
    some (l.foldl (fun a c => a * 10 + (c - 48)) 0)
  else none

/-- The 8 magic bytes of an ar archive. -/
def arMagic : List Nat := [33, 60, 97, 114, 99, 104, 62, 10]

/-- Code points of the reserved symbol-table name stem. -/
def symdefCodes : Name := [95, 95, 46, 83, 89, 77, 68, 69, 70]

/-- A resolved name is special when it starts with the reserved symbol-table
stem, is one of the two reserved string-table names, or is empty. -/
def isSpecial (n : Name) : Bool :=
  n.take 9 == symdefCodes || n == [47] || n == [47, 47] || n.isEmpty

/-- The fatal parse failures of the reader. -/
inductive ParseErr where
  | badMagic
  | nameDecode
  | sizeDecode
  | sizeParse
  | nameLenParse
  | outOfFuel
deriving DecidableEq

/-- Read up to k bytes at an absolute position of the stream. -/
def readAt (bs : List Nat) (pos k : Nat) : List Nat :=
  (bs.drop pos).take k

/-- Align an absolute stream position to a 2-byte boundary by reading one
byte when the position is odd (reading nothing at end of stream). -/
def alignPos (bs : List Nat) (pos : Nat) : Nat :=
  if pos % 2 = 1 then pos + (readAt bs pos 1).length else pos

/-- The reader loop: at each iteration align the position to a 2-byte
boundary, read a 60-byte header (stopping cleanly when fewer than 60 bytes
remain), decode the name and size fields strictly, read the payload, resolve
extended names of the form hash-1-slash-N permissively from the payload, and
yield the record unless its resolved name is special.  The fuel argument only
bounds the recursion; one unit per member suffices. -/
def parseLoop (bs : List Nat) :
    Nat → Nat → List (Name × List Nat) → Except ParseErr (List (Name × List Nat))
  | 0, _, _ => Except.error ParseErr.outOfFuel
  | fuel + 1, pos, acc =>
    let pos1 := alignPos bs pos
    let header := readAt bs pos1 60
    if header.length < 60 then Except.ok acc.reverse
    else
      match decodeAscii (header.take 16) with
      | none => Except.error ParseErr.nameDecode
      | some nameRaw =>
        match decodeAscii ((header.drop 48).take 10) with
        | none => Except.error ParseErr.sizeDecode
        | some sizeRaw =>
          match parseNatDigits (stripWs sizeRaw) with
          | none => Except.error ParseErr.sizeParse
          | some size =>
            let nameField := stripWs nameRaw
            let data := readAt bs (pos1 + 60) size
            let pos2 := pos1 + 60 + data.length
            if nameField.take 3 = [35, 49, 47] then
              match parseNatDigits (nameField.drop 3) with
              | none => Except.error ParseErr.nameLenParse
              | some nameLen =>
                let memberName := decodeReplace (rstripNul (data.take nameLen))
                if isSpecial memberName then parseLoop bs fuel pos2 acc
                else parseLoop bs fuel pos2 ((memberName, data.drop nameLen) :: acc)
            else
              let memberName := rstripSlash nameField
              if isSpecial memberName then parseLoop bs fuel pos2 acc
              else parseLoop bs fuel pos2 ((memberName, data) :: acc)

/-- Parse an ar archive byte stream into its non-special member records, or
fail.  The magic bytes are checked first; then the loop runs from position 8
with ample fuel (each iteration consumes at least 60 bytes). -/
def parse_ar (bs : List Nat) : Except ParseErr (List (Name × List Nat)) :=
  if bs.take 8 = arMagic then parseLoop bs (bs.length + 1) 8 []
  else Except.error ParseErr.badMagic

/-- Code points of the candidate object name ggml.c.o. -/
def ggmlC : Name := [103, 103, 109, 108, 46, 99, 46, 111]

/-- Code points of the candidate object name ggml-alloc.c.o. -/
def ggmlAlloc : Name :=
  [103, 103, 109, 108, 45, 97, 108, 108, 111, 99, 46, 99, 46, 111]

/-- Code points of the candidate object name ggml-backend.c.o. -/
def ggmlBackend : Name :=
  [103, 103, 109, 108, 45, 98, 97, 99, 107, 101, 110, 100, 46, 99, 46, 111]

/-- Code points of the candidate object name ggml-quants.c.o. -/
def ggmlQuants : Name :=
  [103, 103, 109, 108, 45, 113, 117, 97, 110, 116, 115, 46, 99, 46, 111]

/-- The fixed candidate set of object names subject to deduplication. -/
def duplicate_candidates : List Name := [ggmlC, ggmlAlloc, ggmlBackend, ggmlQuants]

/-- Number of occurrences of a name in a list of names. -/
def countN (n : Name) : List Name → Nat
  | [] => 0
  | x :: t => (if x = n then 1 else 0) + countN n t

/-- The candidate names that actually occur more than once. -/
def actual_dups (names : List Name) : List Name :=
  duplicate_candidates.filter (fun n => decide (1 < countN n names))

/-- Lookup in the association list modelling the seen dictionary. -/
def lookupSeen (n : Name) : List (Name × Nat) → Option Nat
  | [] => none
  | (m, i) :: t => if m = n then some i else lookupSeen n t

/-- Set-like insertion into the skip index list. -/
def insertSkip (j : Nat) (skip : List Nat) : List Nat :=
  if j ∈ skip then skip else j :: skip

/-- The dedup loop: enumerate the names; for a name in the actually-duplicated
set, record its index on first sight, and on every later sight add the
recorded first index to the skip set. -/
def dedupLoop (ad : List Name) : Nat → List Name → List (Name × Nat) → List Nat → List Nat
  | _, [], _, skip => skip
  | i, n :: rest, seen, skip =>
    if n ∈ ad then
      match lookupSeen n seen with
      | none => dedupLoop ad (i + 1) rest ((n, i) :: seen) skip
      | some j => dedupLoop ad (i + 1) rest seen (insertSkip j skip)
    else dedupLoop ad (i + 1) rest seen skip

/-- The computed drop set of member indices, as a duplicate-free list. -/
def skip_indices (names : List Name) : List Nat :=
  dedupLoop (actual_dups names) 0 names [] []

/-- Keep the elements whose position (counted from i) is not in the skip
set; this is the extraction loop of main. -/
def keepFrom (skip : List Nat) : Nat → List α → List α
  | _, [] => []
  | i, x :: t =>
    if i ∈ skip then keepFrom skip (i + 1) t else x :: keepFrom skip (i + 1) t

/-- The members surviving a skip set. -/
def survivors (skip : List Nat) (l : List α) : List α :=
  keepFrom skip 0 l

/-- The name list surviving one dedup pass. -/
def survivorNames (names : List Name) : List Name :=
  survivors (skip_indices names) names

/-- The abstract world a run executes in: the argument count, the input
archive bytes, the content of a pre-existing file at the output path (if
any), whether the external cp succeeds, whether the external ar succeeds, and
the bytes ar would write on success. -/
structure World where
  argc : Nat
  inputBytes : List Nat
  preOutput : Option (List Nat)
  cpOk : Bool
  arOk : Bool
  arOutput : List Nat
deriving DecidableEq

/-- The observable outcome of a run: process exit code, final content of the
output path (none when absent), whether the usage message was printed,
whether any file was opened, whether the staging/rebuild path ran, and the
ordered member list handed to the external archiver. -/
structure RunResult where
  exitCode : Nat
  outFile : Option (List Nat)
  printedUsage : Bool
  openedAnyFile : Bool
  ranRebuild : Bool
  writerInput : List (Name × List Nat)
deriving DecidableEq

/-- The orchestration of main: check the argument count, parse the input
(a parse failure is an uncaught exception, exit 1, output untouched), take
the verbatim-copy fast path when no candidate name is actually duplicated
(the cp exit status is not checked), otherwise stage the surviving members,
remove a pre-existing output file, and invoke ar (whose failure is an
uncaught exception, exit 1, after the output was already removed). -/
def run (w : World) : RunResult :=
  if w.argc ≠ 3 then
    ⟨1, w.preOutput, true, false, false, []⟩
  else
    match parse_ar w.inputBytes with
    | Except.error _ => ⟨1, w.preOutput, false, true, false, []⟩
    | Except.ok members =>
      let names := members.map Prod.fst
      if actual_dups names = [] then
        ⟨0, if w.cpOk then some w.inputBytes else w.preOutput, false, true, false, []⟩
      else
        let extracted := survivors (skip_indices names) members
        if w.arOk then ⟨0, some w.arOutput, false, true, true, extracted⟩
        else ⟨1, none, false, true, true, extracted⟩

/-! ### Basic lemmas about counting and first occurrences -/

/-- A name occurs a positive number of times exactly when it is a member. -/
lemma countN_pos_iff {n : Name} {l : List Name} : 0 < countN n l ↔ n ∈ l := by
  induction l with
  | nil => simp [countN]
  | cons x t ih =>
    by_cases hx : x = n
    · subst hx; simp [countN]
    · have : ¬ n = x := fun h => hx h.symm
      simp [countN, hx, ih, List.mem_cons, this]

/-- Unfolding lemma for countN on a cons cell. -/
lemma countN_cons (n x : Name) (t : List Name) :
    countN n (x :: t) = (if x = n then 1 else 0) + countN n t := rfl

/-- The index of the first occurrence of a name. -/
def firstIdx (n : Name) : List Name → Nat
  | [] => 0
  | x :: t => if x = n then 0 else firstIdx n t + 1

/-- The first-occurrence index of a member is inside the list. -/
lemma firstIdx_lt_length {n : Name} {l : List Name} (h : n ∈ l) :
    firstIdx n l < l.length := by
  induction l with
  | nil => cases h
  | cons x t ih =>
    by_cases hx : x = n
    · simp [firstIdx, hx]
    · have hmem : n ∈ t := by
        rcases List.mem_cons.mp h with h1 | h1
        · exact absurd h1.symm hx
        · exact h1
      simpa [firstIdx, hx] using ih hmem

/-- Positional lookup in a name list. -/
def getAt : List Name → Nat → Option Name
  | [], _ => none
  | x :: _, 0 => some x
  | _ :: t, i + 1 => getAt t i

/-- The element at the first-occurrence index of a member is that member. -/
lemma getAt_firstIdx {n : Name} {l : List Name} (h : n ∈ l) :
    getAt l (firstIdx n l) = some n := by
  induction l with
  | nil => cases h
  | cons x t ih =>
    by_cases hx : x = n
    · simp [firstIdx, hx, getAt]
    · have hmem : n ∈ t := by
        rcases List.mem_cons.mp h with h1 | h1
        · exact absurd h1.symm hx
        · exact h1
      simpa [firstIdx, hx, getAt] using ih hmem

/-- The ascending list of absolute positions (offset by k) at which a name
occurs. -/
def occIdx (n : Name) : Nat → List Name → List Nat
  | _, [] => []
  | k, x :: t => if x = n then k :: occIdx n (k + 1) t else occIdx n (k + 1) t

/-- There are as many occurrence positions as occurrences. -/
lemma occIdx_length (n : Name) (k : Nat) (l : List Name) :
    (occIdx n k l).length = countN n l := by
  induction l generalizing k with
  | nil => rfl
  | cons x t ih =>
    by_cases hx : x = n
    · simp [occIdx, countN, hx, ih]; omega
    · simp [occIdx, countN, hx, ih]

/-- Occurrence positions are at least the offset. -/
lemma occIdx_lb {n : Name} {k j : Nat} {l : List Name} (h : j ∈ occIdx n k l) :
    k ≤ j := by
  induction l generalizing k with
  | nil => cases h
  | cons x t ih =>
    by_cases hx : x = n
    · rw [occIdx, if_pos hx] at h
      rcases List.mem_cons.mp h with h1 | h1
      · omega
      · have := ih h1; omega
    · rw [occIdx, if_neg hx] at h
      have := ih h; omega

/-- The list element at an occurrence position is the counted name. -/
lemma getAt_of_mem_occIdx {n : Name} {k j : Nat} {l : List Name}
    (h : j ∈ occIdx n k l) : getAt l (j - k) = some n := by
  induction l generalizing k with
  | nil => cases h
  | cons x t ih =>
    by_cases hx : x = n
    · rw [occIdx, if_pos hx] at h
      rcases List.mem_cons.mp h with h1 | h1
      · subst h1; simp [getAt, hx]
      · have hlb := occIdx_lb h1
        have := ih h1
        have hj : j - k = (j - (k + 1)) + 1 := by omega
        rw [hj]; simpa [getAt] using this
    · rw [occIdx, if_neg hx] at h
      have hlb := occIdx_lb h
      have := ih h
      have hj : j - k = (j - (k + 1)) + 1 := by omega
      rw [hj]; simpa [getAt] using this

/-- Occurrence positions are distinct. -/
lemma occIdx_nodup (n : Name) (k : Nat) (l : List Name) :
    (occIdx n k l).Nodup := by
  induction l generalizing k with
  | nil => exact List.nodup_nil
  | cons x t ih =>
    by_cases hx : x = n
    · rw [occIdx, if_pos hx]
      refine List.nodup_cons.mpr ⟨fun h => ?_, ih (k + 1)⟩
      have := occIdx_lb h; omega
    · rw [occIdx, if_neg hx]; exact ih (k + 1)

/-- The first occurrence of a member appears among its occurrence
positions. -/
lemma firstIdx_mem_occIdx {n : Name} {l : List Name} (h : n ∈ l) (k : Nat) :
    k + firstIdx n l ∈ occIdx n k l := by
  induction l generalizing k with
  | nil => cases h
  | cons x t ih =>
    by_cases hx : x = n
    · simp [occIdx, firstIdx, hx]
    · have hmem : n ∈ t := by
        rcases List.mem_cons.mp h with h1 | h1
        · exact absurd h1.symm hx
        · exact h1
      have := ih hmem (k + 1)
      rw [occIdx, if_neg hx, firstIdx, if_neg hx]
      have harith : k + (firstIdx n t + 1) = k + 1 + firstIdx n t := by omega
      rw [harith]; exact this

/-! ### Lemmas about the survivor extraction -/

/-- Remove the positions that belong to the skip set. -/
def filterNot (skip : List Nat) : List Nat → List Nat
  | [] => []
  | j :: t => if j ∈ skip then filterNot skip t else j :: filterNot skip t

/-- Keep the positions that are at least the bound. -/
def filterGe (k : Nat) : List Nat → List Nat
  | [] => []
  | j :: t => if k ≤ j then j :: filterGe k t else filterGe k t

/-- Removing skip positions touches nothing when no element is skipped. -/
lemma filterNot_eq_self {skip l : List Nat} (h : ∀ j ∈ l, j ∉ skip) :
    filterNot skip l = l := by
  induction l with
  | nil => rfl
  | cons j t ih =>
    rw [filterNot, if_neg (h j (List.mem_cons_self j t))]
    rw [ih fun i hi => h i (List.mem_cons_of_mem j hi)]

/-- Removing skip positions from a duplicate-free list whose skipped elements
are exactly one present element shortens it by exactly one. -/
lemma filterNot_length_remove_one {skip l : List Nat} {a : Nat}
    (hnd : l.Nodup) (ha : a ∈ l) (hiff : ∀ j ∈ l, j ∈ skip ↔ j = a) :
    (filterNot skip l).length + 1 = l.length := by
  induction l with
  | nil => cases ha
  | cons j t ih =>
    rcases List.nodup_cons.mp hnd with ⟨hjt, hndt⟩
    by_cases hja : j = a
    · subst hja
      have hjskip : j ∈ skip := (hiff j (List.mem_cons_self j t)).mpr rfl
      rw [filterNot, if_pos hjskip]
      have hnone : ∀ i ∈ t, i ∉ skip := by
        intro i hi hiskip
        have : i = j := (hiff i (List.mem_cons_of_mem j hi)).mp hiskip
        exact hjt (this ▸ hi)
      rw [filterNot_eq_self hnone]
      simp
    · have hjskip : j ∉ skip := by
        intro hj
        exact hja ((hiff j (List.mem_cons_self j t)).mp hj)
      have hat : a ∈ t := by
        rcases List.mem_cons.mp ha with h1 | h1
        · exact absurd h1.symm hja
        · exact h1
      rw [filterNot, if_neg hjskip]
      have := ih hndt hat fun i hi => hiff i (List.mem_cons_of_mem j hi)
      simpa using this

/-- With an empty skip set every element is kept. -/
lemma keepFrom_nil_skip {α : Type} (k : Nat) (l : List α) :
    keepFrom ([] : List Nat) k l = l := by
  induction l generalizing k with
  | nil => rfl
  | cons x t ih => rw [keepFrom, if_neg (List.not_mem_nil k)]; rw [ih]

/-- The kept elements form a sublist (relative order is preserved). -/
lemma keepFrom_sublist {α : Type} (skip : List Nat) (k : Nat) (l : List α) :
    (keepFrom skip k l).Sublist l := by
  induction l generalizing k with
  | nil => exact List.Sublist.refl []
  | cons x t ih =>
    rw [keepFrom]
    by_cases hk : k ∈ skip
    · rw [if_pos hk]; exact List.Sublist.cons x (ih (k + 1))
    · rw [if_neg hk]; exact List.Sublist.cons₂ x (ih (k + 1))

/-- The count of a name among the kept elements is the number of its
occurrence positions outside the skip set. -/
lemma countN_keepFrom (skip : List Nat) (n : Name) (k : Nat) (l : List Name) :
    countN n (keepFrom skip k l) = (filterNot skip (occIdx n k l)).length := by
  induction l generalizing k with
  | nil => rfl
  | cons x t ih =>
    rw [keepFrom, occIdx]
    by_cases hk : k ∈ skip
    · rw [if_pos hk]
      by_cases hx : x = n
      · rw [if_pos hx, filterNot, if_pos hk]; exact ih (k + 1)
      · rw [if_neg hx]; exact ih (k + 1)
    · rw [if_neg hk]
      by_cases hx : x = n
      · rw [if_pos hx, filterNot, if_neg hk, countN_cons, if_pos hx]
        simp [ih (k + 1)]; omega
      · rw [if_neg hx, countN_cons, if_neg hx]
        simp [ih (k + 1)]

/-- Keeping positions at least zero keeps everything. -/
lemma filterGe_zero (l : List Nat) : filterGe 0 l = l := by
  induction l with
  | nil => rfl
  | cons j t ih => rw [filterGe, if_pos (Nat.zero_le j), ih]

/-- When the bound is absent, raising it by one does not change the kept
positions. -/
lemma filterGe_succ_of_not_mem {k : Nat} {l : List Nat} (h : k ∉ l) :
    filterGe k l = filterGe (k + 1) l := by
  induction l with
  | nil => rfl
  | cons j t ih =>
    have hjk : j ≠ k := fun hj => h (hj ▸ List.mem_cons_self j t)
    have ht : k ∉ t := fun hk => h (List.mem_cons_of_mem j hk)
    by_cases hle : k ≤ j
    · have hle1 : k + 1 ≤ j := by omega
      rw [filterGe, if_pos hle, filterGe, if_pos hle1, ih ht]
    · have hle1 : ¬ k + 1 ≤ j := by omega
      rw [filterGe, if_neg hle, filterGe, if_neg hle1, ih ht]

/-- When the bound is a member of a duplicate-free list, raising it by one
removes exactly that one position. -/
lemma filterGe_succ_of_mem {k : Nat} {l : List Nat} (hnd : l.Nodup)
    (h : k ∈ l) : (filterGe k l).length = (filterGe (k + 1) l).length + 1 := by
  induction l with
  | nil => cases h
  | cons j t ih =>
    rcases List.nodup_cons.mp hnd with ⟨hjt, hndt⟩
    by_cases hjk : j = k
    · subst hjk
      have h1 : ¬ j + 1 ≤ j := by omega
      rw [filterGe, if_pos (Nat.le_refl j), filterGe, if_neg h1]
      rw [← filterGe_succ_of_not_mem hjt]
      simp
    · have hkt : k ∈ t := by
        rcases List.mem_cons.mp h with h1 | h1
        · exact absurd h1.symm hjk
        · exact h1
      by_cases hle : k ≤ j
      · have hle1 : k + 1 ≤ j := by omega
        rw [filterGe, if_pos hle, filterGe, if_pos hle1]
        simp [ih hndt hkt]
      · have hle1 : ¬ k + 1 ≤ j := by omega
        rw [filterGe, if_neg hle, filterGe, if_neg hle1]
        exact ih hndt hkt

/-- Positions all below the bound are all removed. -/
lemma filterGe_eq_nil {k : Nat} {l : List Nat} (h : ∀ j ∈ l, j < k) :
    filterGe k l = [] := by
  induction l with
  | nil => rfl
  | cons j t ih =>
    have : ¬ k ≤ j := by have := h j (List.mem_cons_self j t); omega
    rw [filterGe, if_neg this]
    exact ih fun i hi => h i (List.mem_cons_of_mem j hi)

/-- Counting identity of the extraction loop: the number of kept elements
plus the number of in-range skip positions is the original length. -/
lemma keepFrom_length {α : Type} (skip : List Nat) (hnd : skip.Nodup) :
    ∀ (k : Nat) (l : List α), (∀ j ∈ skip, j < k + l.length) →
      (keepFrom skip k l).length + (filterGe k skip).length = l.length := by
  intro k l
  induction l generalizing k with
  | nil =>
    intro hb
    rw [keepFrom, filterGe_eq_nil fun j hj => by have := hb j hj; simpa using this]
    rfl
  | cons x t ih =>
    intro hb
    rw [keepFrom]
    by_cases hk : k ∈ skip
    · rw [if_pos hk]
      have hbt : ∀ j ∈ skip, j < (k + 1) + t.length := by
        intro j hj; have := hb j hj; simp at this; omega
      have := ih (k + 1) hbt
      rw [filterGe_succ_of_mem hnd hk]
      simp at this ⊢
      omega
    · rw [if_neg hk]
      have hbt : ∀ j ∈ skip, j < (k + 1) + t.length := by
        intro j hj; have := hb j hj; simp at this; omega
      have := ih (k + 1) hbt
      rw [filterGe_succ_of_not_mem hk]
      simp at this ⊢
      omega

/-! ### Characterization of the dedup loop -/

/-- Unfolding lemma for lookupSeen on a cons cell. -/
lemma lookupSeen_cons (n m : Name) (i : Nat) (s : List (Name × Nat)) :
    lookupSeen n ((m, i) :: s) = if m = n then some i else lookupSeen n s := rfl

/-- Unfolding lemma for firstIdx on a cons cell. -/
lemma firstIdx_cons (n x : Name) (t : List Name) :
    firstIdx n (x :: t) = if x = n then 0 else firstIdx n t + 1 := rfl

/-- Membership in the set-like skip insertion. -/
lemma mem_insertSkip {j k : Nat} {skip : List Nat} :
    k ∈ insertSkip j skip ↔ k = j ∨ k ∈ skip := by
  rw [insertSkip]
  by_cases hj : j ∈ skip
  · rw [if_pos hj]
    constructor
    · exact Or.inr
    · rintro (rfl | h)
      · exact hj
      · exact h
  · rw [if_neg hj]; exact List.mem_cons

/-- Set-like insertion preserves distinctness. -/
lemma insertSkip_nodup {j : Nat} {skip : List Nat} (h : skip.Nodup) :
    (insertSkip j skip).Nodup := by
  rw [insertSkip]
  by_cases hj : j ∈ skip
  · rw [if_pos hj]; exact h
  · rw [if_neg hj]; exact List.nodup_cons.mpr ⟨hj, h⟩

/-- The dedup loop keeps the skip list duplicate-free. -/
lemma dedupLoop_nodup (ad : List Name) :
    ∀ (l : List Name) (k : Nat) (seen : List (Name × Nat)) (skip : List Nat),
      skip.Nodup → (dedupLoop ad k l seen skip).Nodup := by
  intro l
  induction l with
  | nil => intro k seen skip h; exact h
  | cons x t ih =>
    intro k seen skip h
    by_cases hx : x ∈ ad
    · cases hls : lookupSeen x seen with
      | none =>
        have hred : dedupLoop ad k (x :: t) seen skip
            = dedupLoop ad (k + 1) t ((x, k) :: seen) skip := by
          simp [dedupLoop, hx, hls]
        rw [hred]; exact ih _ _ _ h
      | some j =>
        have hred : dedupLoop ad k (x :: t) seen skip
            = dedupLoop ad (k + 1) t seen (insertSkip j skip) := by
          simp [dedupLoop, hx, hls]
        rw [hred]; exact ih _ _ _ (insertSkip_nodup h)
    · have hred : dedupLoop ad k (x :: t) seen skip
          = dedupLoop ad (k + 1) t seen skip := by
        simp [dedupLoop, hx]
      rw [hred]; exact ih _ _ _ h

/-- Exact membership characterization of the dedup loop: an index ends up in
the final skip list exactly when it was already there, or the seen table
already maps some actually-duplicated name occurring in the remainder to it,
or it is the (offset) first occurrence of an unseen actually-duplicated name
occurring at least twice in the remainder. -/
lemma mem_dedupLoop (ad : List Name) :
    ∀ (l : List Name) (k : Nat) (seen : List (Name × Nat)) (skip : List Nat) (j : Nat),
      j ∈ dedupLoop ad k l seen skip ↔
        j ∈ skip
        ∨ (∃ n, n ∈ ad ∧ lookupSeen n seen = some j ∧ n ∈ l)
        ∨ (∃ n, n ∈ ad ∧ lookupSeen n seen = none ∧ 2 ≤ countN n l ∧
            j = k + firstIdx n l) := by
  intro l
  induction l with
  | nil =>
    intro k seen skip j
    simp [dedupLoop, countN]
  | cons x t ih =>
    intro k seen skip j
    by_cases hx : x ∈ ad
    · cases hls : lookupSeen x seen with
      | none =>
        have hred : dedupLoop ad k (x :: t) seen skip
            = dedupLoop ad (k + 1) t ((x, k) :: seen) skip := by
          simp [dedupLoop, hx, hls]
        rw [hred, ih]
        constructor
        · rintro (h | ⟨n, hn, hlook, hmem⟩ | ⟨n, hn, hlook, hcnt, hj⟩)
          · exact Or.inl h
          · by_cases hxn : x = n
            · subst hxn
              rw [lookupSeen_cons, if_pos rfl] at hlook
              have hjk : k = j := by injection hlook
              refine Or.inr (Or.inr ⟨x, hx, hls, ?_, ?_⟩)
              · rw [countN_cons, if_pos rfl]
                have : 0 < countN x t := countN_pos_iff.mpr hmem
                omega
              · rw [firstIdx_cons, if_pos rfl]; omega
            · rw [lookupSeen_cons, if_neg hxn] at hlook
              exact Or.inr (Or.inl ⟨n, hn, hlook, List.mem_cons_of_mem x hmem⟩)
          · have hxn : ¬ x = n := by
              intro h1
              rw [lookupSeen_cons, if_pos h1] at hlook
              simp at hlook
            rw [lookupSeen_cons, if_neg hxn] at hlook
            refine Or.inr (Or.inr ⟨n, hn, hlook, ?_, ?_⟩)
            · rw [countN_cons, if_neg hxn]; omega
            · rw [firstIdx_cons, if_neg hxn]; omega
        · rintro (h | ⟨n, hn, hlook, hmem⟩ | ⟨n, hn, hlook, hcnt, hj⟩)
          · exact Or.inl h
          · by_cases hxn : x = n
            · subst hxn; rw [hls] at hlook; simp at hlook
            · refine Or.inr (Or.inl ⟨n, hn, ?_, ?_⟩)
              · rw [lookupSeen_cons, if_neg hxn]; exact hlook
              · rcases List.mem_cons.mp hmem with h1 | h1
                · exact absurd h1.symm hxn
                · exact h1
          · by_cases hxn : x = n
            · subst hxn
              rw [firstIdx_cons, if_pos rfl] at hj
              rw [countN_cons, if_pos rfl] at hcnt
              refine Or.inr (Or.inl ⟨x, hx, ?_, ?_⟩)
              · rw [lookupSeen_cons, if_pos rfl]
                have : j = k := by omega
                rw [this]
              · exact countN_pos_iff.mp (by omega)
            · rw [firstIdx_cons, if_neg hxn] at hj
              rw [countN_cons, if_neg hxn] at hcnt
              refine Or.inr (Or.inr ⟨n, hn, ?_, ?_, ?_⟩)
              · rw [lookupSeen_cons, if_neg hxn]; exact hlook
              · omega
              · omega
      | some j0 =>
        have hred : dedupLoop ad k (x :: t) seen skip
            = dedupLoop ad (k + 1) t seen (insertSkip j0 skip) := by
          simp [dedupLoop, hx, hls]
        rw [hred, ih]
        rw [mem_insertSkip]
        constructor
        · rintro ((hj0 | h) | ⟨n, hn, hlook, hmem⟩ | ⟨n, hn, hlook, hcnt, hj⟩)
          · refine Or.inr (Or.inl ⟨x, hx, ?_, List.mem_cons_self x t⟩)
            rw [hls, hj0]
          · exact Or.inl h
          · exact Or.inr (Or.inl ⟨n, hn, hlook, List.mem_cons_of_mem x hmem⟩)
          · have hxn : ¬ x = n := by
              intro h1; subst h1; rw [hls] at hlook; simp at hlook
            refine Or.inr (Or.inr ⟨n, hn, hlook, ?_, ?_⟩)
            · rw [countN_cons, if_neg hxn]; omega
            · rw [firstIdx_cons, if_neg hxn]; omega
        · rintro (h | ⟨n, hn, hlook, hmem⟩ | ⟨n, hn, hlook, hcnt, hj⟩)
          · exact Or.inl (Or.inr h)
          · by_cases hxn : x = n
            · subst hxn
              rw [hls] at hlook
              have : j0 = j := by injection hlook
              exact Or.inl (Or.inl this.symm)
            · rcases List.mem_cons.mp hmem with h1 | h1
              · exact absurd h1.symm hxn
              · exact Or.inr (Or.inl ⟨n, hn, hlook, h1⟩)
          · by_cases hxn : x = n
            · subst hxn; rw [hls] at hlook; simp at hlook
            · rw [countN_cons, if_neg hxn] at hcnt
              rw [firstIdx_cons, if_neg hxn] at hj
              exact Or.inr (Or.inr ⟨n, hn, hlook, by omega, by omega⟩)
    · have hred : dedupLoop ad k (x :: t) seen skip
          = dedupLoop ad (k + 1) t seen skip := by
        simp [dedupLoop, hx]
      rw [hred, ih]
      constructor
      · rintro (h | ⟨n, hn, hlook, hmem⟩ | ⟨n, hn, hlook, hcnt, hj⟩)
        · exact Or.inl h
        · exact Or.inr (Or.inl ⟨n, hn, hlook, List.mem_cons_of_mem x hmem⟩)
        · have hxn : ¬ x = n := fun h1 => hx (h1 ▸ hn)
          refine Or.inr (Or.inr ⟨n, hn, hlook, ?_, ?_⟩)
          · rw [countN_cons, if_neg hxn]; omega
          · rw [firstIdx_cons, if_neg hxn]; omega
      · rintro (h | ⟨n, hn, hlook, hmem⟩ | ⟨n, hn, hlook, hcnt, hj⟩)
        · exact Or.inl h
        · have hxn : ¬ x = n := fun h1 => hx (h1 ▸ hn)
          rcases List.mem_cons.mp hmem with h1 | h1
          · exact absurd h1.symm hxn
          · exact Or.inr (Or.inl ⟨n, hn, hlook, h1⟩)
        · have hxn : ¬ x = n := fun h1 => hx (h1 ▸ hn)
          rw [countN_cons, if_neg hxn] at hcnt
          rw [firstIdx_cons, if_neg hxn] at hj
          exact Or.inr (Or.inr ⟨n, hn, hlook, by omega, by omega⟩)

/-- Membership in the actually-duplicated set. -/
lemma mem_actual_dups {n : Name} {names : List Name} :
    n ∈ actual_dups names ↔ n ∈ duplicate_candidates ∧ 1 < countN n names := by
  simp [actual_dups, List.mem_filter]

/-- The drop set consists exactly of the first-occurrence indices of the
actually-duplicated candidate names. -/
lemma mem_skip_indices {names : List Name} {j : Nat} :
    j ∈ skip_indices names ↔ ∃ n, n ∈ actual_dups names ∧ j = firstIdx n names := by
  rw [skip_indices, mem_dedupLoop]
  constructor
  · rintro (h | ⟨n, hn, hlook, hmem⟩ | ⟨n, hn, hlook, hcnt, hj⟩)
    · cases h
    · exact Option.noConfusion hlook
    · exact ⟨n, hn, by simpa using hj⟩
  · rintro ⟨n, hn, hj⟩
    have hcnt : 1 < countN n names := (mem_actual_dups.mp hn).2
    refine Or.inr (Or.inr ⟨n, hn, rfl, by omega, by simpa using hj⟩)

/-- The drop set list is duplicate-free, so its length is its cardinality. -/
lemma skip_indices_nodup (names : List Name) : (skip_indices names).Nodup :=
  dedupLoop_nodup _ names 0 [] [] List.nodup_nil

/-- Every dropped index is a valid position of the name list. -/
lemma skip_indices_lt_length {names : List Name} {j : Nat}
    (h : j ∈ skip_indices names) : j < names.length := by
  rcases mem_skip_indices.mp h with ⟨n, hn, rfl⟩
  have hcnt : 1 < countN n names := (mem_actual_dups.mp hn).2
  exact firstIdx_lt_length (countN_pos_iff.mp (by omega))

/-- The name at a dropped index determines the dropped name: an occurrence
position of n that is in the drop set must be the first occurrence of n. -/
lemma eq_firstIdx_of_mem_skip {names : List Name} {n : Name} {i : Nat}
    (hi : i ∈ occIdx n 0 names) (hiskip : i ∈ skip_indices names) :
    i = firstIdx n names ∧ n ∈ actual_dups names := by
  rcases mem_skip_indices.mp hiskip with ⟨m, hm, heq⟩
  have hmcnt : 1 < countN m names := (mem_actual_dups.mp hm).2
  have hmmem : m ∈ names := countN_pos_iff.mp (by omega)
  have h1 := getAt_firstIdx hmmem
  have h2 := getAt_of_mem_occIdx hi
  rw [Nat.sub_zero, heq, h1] at h2
  have hmn : m = n := by injection h2
  subst hmn
  exact ⟨heq, hm⟩

/-- One dedup pass removes exactly one occurrence of each actually-duplicated
candidate name and no occurrence of any other name. -/
lemma countN_survivorNames (names : List Name) (n : Name) :
    countN n (survivorNames names) + (if n ∈ actual_dups names then 1 else 0)
      = countN n names := by
  rw [survivorNames, survivors, countN_keepFrom, ← occIdx_length n 0 names]
  by_cases hn : n ∈ actual_dups names
  · rw [if_pos hn]
    have hcnt : 1 < countN n names := (mem_actual_dups.mp hn).2
    have hmem : n ∈ names := countN_pos_iff.mp (by omega)
    have hfst : firstIdx n names ∈ occIdx n 0 names := by
      simpa using firstIdx_mem_occIdx hmem 0
    refine filterNot_length_remove_one (occIdx_nodup n 0 names) hfst ?_
    intro i hi
    constructor
    · intro hiskip
      exact (eq_firstIdx_of_mem_skip hi hiskip).1
    · intro hieq
      rw [hieq]
      exact mem_skip_indices.mpr ⟨n, hn, rfl⟩
  · rw [if_neg hn]
    have hne : ∀ i ∈ occIdx n 0 names, i ∉ skip_indices names := by
      intro i hi hiskip
      exact hn (eq_firstIdx_of_mem_skip hi hiskip).2
    rw [filterNot_eq_self hne]
    omega

/-! ### Reader facts and concrete archives -/

/-- A filter over names is empty when the predicate fails everywhere. -/
lemma filter_eq_nil_of {p : Name → Bool} {l : List Name}
    (h : ∀ a ∈ l, p a = false) : l.filter p = [] := by
  induction l with
  | nil => rfl
  | cons x t ih =>
    have hx := h x (List.mem_cons_self x t)
    simp [List.filter_cons, hx, ih fun a ha => h a (List.mem_cons_of_mem x ha)]

/-- No candidate name occurring more than once means an empty
actually-duplicated set. -/
lemma actual_dups_eq_nil {names : List Name}
    (h : ∀ n ∈ duplicate_candidates, countN n names ≤ 1) :
    actual_dups names = [] := by
  apply filter_eq_nil_of
  intro a ha
  have := h a ha
  simp only [decide_eq_false_iff_not]
  omega

/-- Space-pad a field to its fixed width. -/
def padTo (k : Nat) (l : List Nat) : List Nat :=
  l ++ List.replicate (k - l.length) 32

/-- A 60-byte member header from a name field and a decimal size field (the
ignored middle fields are spaces, the terminator is backquote newline). -/
def mkHeader (name size : List Nat) : List Nat :=
  padTo 16 name ++ List.replicate 32 32 ++ padTo 10 size ++ [96, 10]

/-- An archive containing the candidate ggml.c.o twice. -/
def exDupArchive : List Nat :=
  arMagic ++ mkHeader ggmlC [52] ++ [1, 2, 3, 4] ++ mkHeader ggmlC [52] ++ [9, 9, 9, 9]

/-- An archive containing one non-candidate member a.o. -/
def exNoDupArchive : List Nat :=
  arMagic ++ mkHeader [97, 46, 111] [52] ++ [1, 2, 3, 4]

/-- An archive whose first member is the reserved symbol table, followed by a
normal member a.o. -/
def exSymdefArchive : List Nat :=
  arMagic ++ mkHeader symdefCodes [52] ++ [8, 8, 8, 8]
    ++ mkHeader [97, 46, 111] [52] ++ [1, 2, 3, 4]

/-- A header whose 16-byte name field starts with the undecodable byte 255. -/
def badNameHeader : List Nat :=
  255 :: (List.replicate 15 32 ++ List.replicate 32 32 ++ padTo 10 [48] ++ [96, 10])

/-- A single-member archive in the BSD extended-name form, written out byte
by byte: the magic, then a 60-byte header whose name field is the marker for
a 4-byte name stored at the start of the 6-byte payload (size field 6), then
the payload: four arbitrary name bytes followed by the 2-byte content. -/
def bsdArchive (b1 b2 b3 b4 : Nat) : List Nat :=
  [33, 60, 97, 114, 99, 104, 62, 10,
   35, 49, 47, 52, 32, 32, 32, 32, 32, 32, 32, 32, 32, 32, 32, 32,
   32, 32, 32, 32, 32, 32, 32, 32, 32, 32, 32, 32, 32, 32, 32, 32,
   32, 32, 32, 32, 32, 32, 32, 32, 32, 32, 32, 32, 32, 32, 32, 32,
   54, 32, 32, 32, 32, 32, 32, 32, 32, 32,
   96, 10,
   b1, b2, b3, b4, 5, 6]

/-- A world with a duplicated input archive, a pre-existing output file, and
a failing external archiver. -/
def dupWorldArFails : World := ⟨3, exDupArchive, some [7], true, false, [5, 5]⟩

/-- A world with a duplicated input archive and a succeeding archiver. -/
def dupWorldArOk : World := ⟨3, exDupArchive, none, true, true, [5, 5]⟩

/-! ### Claim theorems -/

/-- C9: an invocation whose argument count is not exactly two positional
arguments (three entries counting the program name) prints the usage message,
exits with status 1, and attempts no file input or output. -/
theorem C9_arg_count_usage (w : World) (h : w.argc ≠ 3) :
    (run w).exitCode = 1 ∧ (run w).printedUsage = true ∧
      (run w).openedAnyFile = false := by
  rw [run, if_pos h]
  exact ⟨rfl, rfl, rfl⟩

/-- Witness for C9 at a concrete world with a single argument. -/
theorem C9_arg_count_usage_witness :
    (run ⟨1, [], none, true, true, []⟩).exitCode = 1 ∧
      (run ⟨1, [], none, true, true, []⟩).printedUsage = true ∧
      (run ⟨1, [], none, true, true, []⟩).openedAnyFile = false :=
  C9_arg_count_usage ⟨1, [], none, true, true, []⟩ (by decide)

/-- C10: on the fast path (no candidate name actually duplicated) the exit
status is 0 regardless of whether the external copy succeeded, and when the
copy fails the output path is left as it was (possibly with no valid output
produced). -/
theorem C10_unchecked_copy_exit_zero (w : World) (members : List (Name × List Nat))
    (hargc : w.argc = 3) (hp : parse_ar w.inputBytes = Except.ok members)
    (hd : actual_dups (members.map Prod.fst) = []) :
    (run w).exitCode = 0 ∧ (w.cpOk = false → (run w).outFile = w.preOutput) := by
  refine ⟨?_, ?_⟩
  · simp [run, hargc, hp, hd]
  · intro hcp
    simp [run, hargc, hp, hd, hcp]

/-- Witness for C10 at a concrete world whose copy command fails. -/
theorem C10_unchecked_copy_exit_zero_witness :
    (run ⟨3, exNoDupArchive, none, false, true, []⟩).exitCode = 0 ∧
      ((⟨3, exNoDupArchive, none, false, true, []⟩ : World).cpOk = false →
        (run ⟨3, exNoDupArchive, none, false, true, []⟩).outFile
          = (⟨3, exNoDupArchive, none, false, true, []⟩ : World).preOutput) :=
  C10_unchecked_copy_exit_zero ⟨3, exNoDupArchive, none, false, true, []⟩
    [([97, 46, 111], [1, 2, 3, 4])] rfl (by decide) (by decide)

/-- C6: when no candidate name occurs more than once among the parsed
members and the external copy succeeds, the output bytes are exactly the
input bytes, the exit status is 0, and no staging or rebuild is performed. -/
theorem C6_passthrough_roundtrip (w : World) (members : List (Name × List Nat))
    (hargc : w.argc = 3) (hp : parse_ar w.inputBytes = Except.ok members)
    (hcnt : ∀ n ∈ duplicate_candidates, countN n (members.map Prod.fst) ≤ 1)
    (hcp : w.cpOk = true) :
    (run w).outFile = some w.inputBytes ∧ (run w).exitCode = 0 ∧
      (run w).ranRebuild = false ∧ (run w).writerInput = [] := by
  have hd := actual_dups_eq_nil hcnt
  simp [run, hargc, hp, hd, hcp]

/-- Witness for C6 at a concrete duplicate-free archive. -/
theorem C6_passthrough_roundtrip_witness :
    (run ⟨3, exNoDupArchive, none, true, true, []⟩).outFile = some exNoDupArchive ∧
      (run ⟨3, exNoDupArchive, none, true, true, []⟩).exitCode = 0 ∧
      (run ⟨3, exNoDupArchive, none, true, true, []⟩).ranRebuild = false ∧
      (run ⟨3, exNoDupArchive, none, true, true, []⟩).writerInput = [] :=
  C6_passthrough_roundtrip ⟨3, exNoDupArchive, none, true, true, []⟩
    [([97, 46, 111], [1, 2, 3, 4])] rfl (by decide) (by decide) rfl

/-- C3 counterexample: with a duplicated archive, a pre-existing output file
and a failing external archiver, the run exits with a non-zero status but the
pre-existing output file has been removed (the destination is gone), refuting
that the destination is never truncated or replaced before the rebuild
reports success. -/
theorem C3_counterexample :
    (run dupWorldArFails).exitCode = 1 ∧ (run dupWorldArFails).outFile = none ∧
      dupWorldArFails.preOutput = some [7] := by decide

/-- C3 amended: a rebuild failure aborts the run with a non-zero status, but
the pre-existing output file was already removed before the rebuild was
invoked, so the destination is left absent rather than intact. -/
theorem C3_rebuild_failure_aborts (w : World) (members : List (Name × List Nat))
    (hargc : w.argc = 3) (hp : parse_ar w.inputBytes = Except.ok members)
    (hd : actual_dups (members.map Prod.fst) ≠ []) (har : w.arOk = false) :
    (run w).exitCode = 1 ∧ (run w).outFile = none := by
  simp [run, hargc, hp, hd, har]

/-- Witness for the amended C3 at the concrete failing world. -/
theorem C3_rebuild_failure_aborts_witness :
    (run dupWorldArFails).exitCode = 1 ∧ (run dupWorldArFails).outFile = none :=
  C3_rebuild_failure_aborts dupWorldArFails
    [(ggmlC, [1, 2, 3, 4]), (ggmlC, [9, 9, 9, 9])] rfl (by decide) (by decide) rfl

/-- C7: on the dedup path the member list handed to the writer is as long as
the parsed member list minus the size of the (duplicate-free) drop set, and
it is a sublist of the parsed members, so any two surviving members keep
their relative input order. -/
theorem C7_count_and_order (w : World) (members : List (Name × List Nat))
    (hargc : w.argc = 3) (hp : parse_ar w.inputBytes = Except.ok members)
    (hd : actual_dups (members.map Prod.fst) ≠ []) :
    (run w).writerInput.length + (skip_indices (members.map Prod.fst)).length
        = members.length
    ∧ (run w).writerInput.Sublist members
    ∧ (skip_indices (members.map Prod.fst)).Nodup := by
  have hw : (run w).writerInput
      = survivors (skip_indices (members.map Prod.fst)) members := by
    cases harOk : w.arOk
    · simp [run, hargc, hp, hd, harOk]
    · simp [run, hargc, hp, hd, harOk]
  rw [hw]
  refine ⟨?_, keepFrom_sublist _ _ _, skip_indices_nodup _⟩
  have hb : ∀ j ∈ skip_indices (members.map Prod.fst), j < 0 + members.length := by
    intro j hj
    have := skip_indices_lt_length hj
    simpa [List.length_map] using this
  have hlen := keepFrom_length (skip_indices (members.map Prod.fst))
    (skip_indices_nodup _) 0 members hb
  rw [filterGe_zero] at hlen
  exact hlen

/-- Witness for C7 at a concrete duplicated archive. -/
theorem C7_count_and_order_witness :
    (run dupWorldArOk).writerInput.length
        + (skip_indices ([(ggmlC, [1, 2, 3, 4]), (ggmlC, [9, 9, 9, 9])].map Prod.fst)).length
        = [(ggmlC, [1, 2, 3, 4]), (ggmlC, [9, 9, 9, 9])].length
    ∧ (run dupWorldArOk).writerInput.Sublist [(ggmlC, [1, 2, 3, 4]), (ggmlC, [9, 9, 9, 9])]
    ∧ (skip_indices ([(ggmlC, [1, 2, 3, 4]), (ggmlC, [9, 9, 9, 9])].map Prod.fst)).Nodup :=
  C7_count_and_order dupWorldArOk [(ggmlC, [1, 2, 3, 4]), (ggmlC, [9, 9, 9, 9])]
    rfl (by decide) (by decide)

/-- C2: the drop set contains exactly the first-occurrence index of each
candidate name occurring more than once; a candidate occurring k greater than
once keeps k minus 1 occurrences, candidates occurring at most once are
untouched, and non-candidate names are never dropped. -/
theorem C2_dropset_exact (names : List Name) :
    (∀ j, j ∈ skip_indices names ↔
        ∃ n, n ∈ duplicate_candidates ∧ 1 < countN n names ∧ j = firstIdx n names)
    ∧ (∀ n, n ∈ duplicate_candidates → 1 < countN n names →
        countN n (survivorNames names) + 1 = countN n names)
    ∧ (∀ n, n ∈ duplicate_candidates → countN n names ≤ 1 →
        countN n (survivorNames names) = countN n names)
    ∧ (∀ n, n ∉ duplicate_candidates →
        countN n (survivorNames names) = countN n names) := by
  refine ⟨?_, ?_, ?_, ?_⟩
  · intro j
    rw [mem_skip_indices]
    constructor
    · rintro ⟨n, hn, hj⟩
      rcases mem_actual_dups.mp hn with ⟨h1, h2⟩
      exact ⟨n, h1, h2, hj⟩
    · rintro ⟨n, h1, h2, hj⟩
      exact ⟨n, mem_actual_dups.mpr ⟨h1, h2⟩, hj⟩
  · intro n h1 h2
    have hcs := countN_survivorNames names n
    rw [if_pos (mem_actual_dups.mpr ⟨h1, h2⟩)] at hcs
    exact hcs
  · intro n h1 h2
    have hcs := countN_survivorNames names n
    rw [if_neg (fun hmem => by have := (mem_actual_dups.mp hmem).2; omega)] at hcs
    omega
  · intro n h1
    have hcs := countN_survivorNames names n
    rw [if_neg (fun hmem => h1 (mem_actual_dups.mp hmem).1)] at hcs
    omega

/-- The name list of the first scenario of the spec: a.o, ggml.c.o, b.o,
ggml.c.o. -/
def scen1 : List Name := [[97, 46, 111], ggmlC, [98, 46, 111], ggmlC]

/-- Witness for C2: in the first scenario the duplicated candidate loses
exactly one occurrence. -/
theorem C2_dropset_exact_witness :
    countN ggmlC (survivorNames scen1) + 1 = countN ggmlC scen1 :=
  (C2_dropset_exact scen1).2.1 ggmlC (by decide) (by decide)

/-- No occurrence at all means count zero. -/
lemma countN_eq_zero {n : Name} {l : List Name} (h : ∀ x ∈ l, x ≠ n) :
    countN n l = 0 := by
  induction l with
  | nil => rfl
  | cons x t ih =>
    rw [countN_cons, if_neg (h x (List.mem_cons_self x t))]
    simpa using ih fun a ha => h a (List.mem_cons_of_mem x ha)

/-- An empty actually-duplicated set gives an empty drop set. -/
lemma skip_indices_eq_nil {names : List Name} (h : actual_dups names = []) :
    skip_indices names = [] := by
  rw [List.eq_nil_iff_forall_not_mem]
  intro j hj
  rcases mem_skip_indices.mp hj with ⟨n, hn, _⟩
  rw [h] at hn
  cases hn

/-- An empty actually-duplicated set means every candidate count is at
most 1. -/
lemma countN_le_one_of_actual_dups_nil {names : List Name}
    (h : actual_dups names = []) :
    ∀ n ∈ duplicate_candidates, countN n names ≤ 1 := by
  intro n hn
  by_contra hgt
  have hmem : n ∈ actual_dups names := mem_actual_dups.mpr ⟨hn, by omega⟩
  rw [h] at hmem
  cases hmem

/-- Code points of the decimal representation of a number (empty for zero);
the fuel argument only bounds the recursion and the number itself suffices. -/
def natDigitsAux : Nat → Nat → List Nat
  | 0, _ => []
  | fuel + 1, n => if n = 0 then [] else natDigitsAux fuel (n / 10) ++ [48 + n % 10]

/-- Zero-pad a digit string on the left to width 5. -/
def zfill5 (l : List Nat) : List Nat :=
  List.replicate (5 - l.length) 48 ++ l

/-- The five-digit zero-padded decimal representation of an index, as in the
format specifier used for staged file names. -/
def digits5 (i : Nat) : List Nat :=
  zfill5 (natDigitsAux i i)

/-- The staged basename of a surviving member: its five-digit zero-padded
original index, an underscore, then its resolved name. -/
def stagedName (i : Nat) (nm : Name) : Name :=
  digits5 i ++ [95] ++ nm

/-- The staged basenames of the surviving members, in order: the extraction
loop of main enumerated from i, skipping the dropped indices. -/
def stagedNames (skip : List Nat) : Nat → List (Name × List Nat) → List Name
  | _, [] => []
  | i, p :: t =>
    if i ∈ skip then stagedNames skip (i + 1) t
    else stagedName i p.1 :: stagedNames skip (i + 1) t

/-- Modelled from the spec: the external archive-building utility (the
collaborator of the writer contract, not part of src/) builds a standard
archive containing the staged blobs in this order under their given names,
so the rebuilt output archive's member names are the staged basenames of the
surviving members. -/
def rebuiltMemberNames (members : List (Name × List Nat)) : List Name :=
  stagedNames (skip_indices (members.map Prod.fst)) 0 members

/-- Every code point produced by the decimal conversion is a digit. -/
lemma natDigitsAux_digits :
    ∀ (fuel n : Nat), ∀ c ∈ natDigitsAux fuel n, 48 ≤ c ∧ c ≤ 57 := by
  intro fuel
  induction fuel with
  | zero => intro n c hc; cases hc
  | succ f ih =>
    intro n c hc
    rw [natDigitsAux] at hc
    by_cases hn : n = 0
    · rw [if_pos hn] at hc; cases hc
    · rw [if_neg hn] at hc
      rcases List.mem_append.mp hc with h1 | h1
      · exact ih _ c h1
      · rcases List.mem_singleton.mp h1 with rfl
        have : n % 10 < 10 := Nat.mod_lt _ (by omega)
        omega

/-- A staged basename starts with a digit code point. -/
lemma stagedName_head (i : Nat) (nm : Name) :
    ∃ h t, stagedName i nm = h :: t ∧ 48 ≤ h ∧ h ≤ 57 := by
  rw [stagedName, digits5, zfill5]
  by_cases h5 : (natDigitsAux i i).length < 5
  · have hrw : 5 - (natDigitsAux i i).length
        = (5 - (natDigitsAux i i).length - 1) + 1 := by omega
    rw [hrw, List.replicate_succ]
    refine ⟨48, List.replicate (5 - (natDigitsAux i i).length - 1) 48
        ++ natDigitsAux i i ++ [95] ++ nm, ?_, by omega, by omega⟩
    simp [List.append_assoc]
  · have hz : 5 - (natDigitsAux i i).length = 0 := by omega
    rw [hz]
    cases haux : natDigitsAux i i with
    | nil => rw [haux] at h5; simp at h5
    | cons c t =>
      have hc : 48 ≤ c ∧ c ≤ 57 :=
        natDigitsAux_digits i i c (haux ▸ List.mem_cons_self c t)
      refine ⟨c, t ++ [95] ++ nm, ?_, hc.1, hc.2⟩
      simp [List.append_assoc]

/-- A staged basename is never a candidate name (candidates start with the
code point of the letter g, staged names with a digit). -/
lemma stagedName_not_candidate (i : Nat) (nm : Name) :
    ∀ n ∈ duplicate_candidates, stagedName i nm ≠ n := by
  intro n hn heq
  rcases stagedName_head i nm with ⟨h, t, hst, hlb, hub⟩
  rw [hst] at heq
  rcases show n = ggmlC ∨ n = ggmlAlloc ∨ n = ggmlBackend ∨ n = ggmlQuants by
      simpa [duplicate_candidates] using hn
    with rfl | rfl | rfl | rfl
  · simp only [ggmlC, List.cons.injEq] at heq
    obtain ⟨h1, -⟩ := heq
    omega
  · simp only [ggmlAlloc, List.cons.injEq] at heq
    obtain ⟨h1, -⟩ := heq
    omega
  · simp only [ggmlBackend, List.cons.injEq] at heq
    obtain ⟨h1, -⟩ := heq
    omega
  · simp only [ggmlQuants, List.cons.injEq] at heq
    obtain ⟨h1, -⟩ := heq
    omega

/-- Every name in the staged list is a staged basename. -/
lemma mem_stagedNames {skip : List Nat} :
    ∀ (k : Nat) (members : List (Name × List Nat)) (x : Name),
      x ∈ stagedNames skip k members → ∃ i nm, x = stagedName i nm := by
  intro k members
  induction members generalizing k with
  | nil => intro x hx; cases hx
  | cons p t ih =>
    intro x hx
    rw [stagedNames] at hx
    by_cases hk : k ∈ skip
    · rw [if_pos hk] at hx
      exact ih (k + 1) x hx
    · rw [if_neg hk] at hx
      rcases List.mem_cons.mp hx with h1 | h1
      · exact ⟨k, p.1, h1⟩
      · exact ih (k + 1) x h1

/-- C1: running the tool a second time on its own output drops no further
indices and leaves the member list unchanged.  The first run's output is
either the verbatim copy of an input with no actually-duplicated candidate
(same member names), or the rebuilt archive whose member names are the
staged basenames; in both cases every candidate count in the second run's
input is at most 1 (zero in the rebuilt case, since staged basenames start
with a digit), so the second run computes an empty drop set, keeps every
member, performs no staging or rebuild, and copies its input verbatim. -/
theorem C1_second_run_drops_nothing (members members2 : List (Name × List Nat))
    (w2 : World)
    (hargc : w2.argc = 3) (hp : parse_ar w2.inputBytes = Except.ok members2)
    (hout : (actual_dups (members.map Prod.fst) = []
        ∧ members2.map Prod.fst = members.map Prod.fst)
      ∨ members2.map Prod.fst = rebuiltMemberNames members) :
    (∀ n ∈ duplicate_candidates, countN n (members2.map Prod.fst) ≤ 1)
    ∧ skip_indices (members2.map Prod.fst) = []
    ∧ survivorNames (members2.map Prod.fst) = members2.map Prod.fst
    ∧ (run w2).ranRebuild = false ∧ (run w2).writerInput = []
    ∧ (w2.cpOk = true → (run w2).outFile = some w2.inputBytes) := by
  have had2 : actual_dups (members2.map Prod.fst) = [] := by
    rcases hout with ⟨had, hnames⟩ | hnames
    · rw [hnames, had]
    · rw [hnames]
      apply actual_dups_eq_nil
      intro n hn
      have hz : countN n (rebuiltMemberNames members) = 0 := by
        apply countN_eq_zero
        intro x hx
        rcases mem_stagedNames 0 members x hx with ⟨i, nm, rfl⟩
        exact stagedName_not_candidate i nm n hn
      omega
  refine ⟨countN_le_one_of_actual_dups_nil had2, skip_indices_eq_nil had2,
    ?_, ?_, ?_, ?_⟩
  · show survivors (skip_indices (members2.map Prod.fst)) (members2.map Prod.fst)
        = members2.map Prod.fst
    rw [skip_indices_eq_nil had2, survivors, keepFrom_nil_skip]
  · simp [run, hargc, hp, had2]
  · simp [run, hargc, hp, had2]
  · intro hcp
    simp [run, hargc, hp, had2, hcp]

/-- The first run's parsed members in the three-occurrence scenario: the
candidate ggml.c.o at indices 0, 1 and 2. -/
def tripleMembers : List (Name × List Nat) :=
  [(ggmlC, [1, 2, 3, 4]), (ggmlC, [9, 9, 9, 9]), (ggmlC, [7, 7, 7, 7])]

/-- The members of the rebuilt output of the first run on tripleMembers:
index 0 was dropped, and the survivors carry their staged basenames. -/
def secondRunMembers : List (Name × List Nat) :=
  [(([48, 48, 48, 48, 49, 95] ++ ggmlC), [9, 9, 9, 9]),
   (([48, 48, 48, 48, 50, 95] ++ ggmlC), [7, 7, 7, 7])]

/-- The rebuilt output of the first run on tripleMembers as an actual
archive byte stream with the staged basenames in the name fields. -/
def rebuiltTripleArchive : List Nat :=
  arMagic ++ mkHeader ([48, 48, 48, 48, 49, 95] ++ ggmlC) [52] ++ [9, 9, 9, 9]
    ++ mkHeader ([48, 48, 48, 48, 50, 95] ++ ggmlC) [52] ++ [7, 7, 7, 7]

/-- The world of the second run: its input is the rebuilt archive. -/
def secondRunWorld : World := ⟨3, rebuiltTripleArchive, none, true, true, []⟩

/-- Witness for C1: the second run on the rebuilt output of the
three-occurrence scenario drops nothing and copies its input verbatim. -/
theorem C1_second_run_drops_nothing_witness :
    (∀ n ∈ duplicate_candidates, countN n (secondRunMembers.map Prod.fst) ≤ 1)
    ∧ skip_indices (secondRunMembers.map Prod.fst) = []
    ∧ survivorNames (secondRunMembers.map Prod.fst) = secondRunMembers.map Prod.fst
    ∧ (run secondRunWorld).ranRebuild = false
    ∧ (run secondRunWorld).writerInput = []
    ∧ (secondRunWorld.cpOk = true →
        (run secondRunWorld).outFile = some secondRunWorld.inputBytes) :=
  C1_second_run_drops_nothing tripleMembers secondRunMembers secondRunWorld
    rfl (by decide) (Or.inr (by decide))

/-- The reader loop only ever accumulates records whose resolved name is not
special, because special records are consumed without being emitted. -/
lemma parseLoop_no_special (bs : List Nat) :
    ∀ (fuel pos : Nat) (acc ms : List (Name × List Nat)),
      (∀ p ∈ acc, isSpecial p.1 = false) →
      parseLoop bs fuel pos acc = Except.ok ms →
      ∀ p ∈ ms, isSpecial p.1 = false := by
  intro fuel
  induction fuel with
  | zero =>
    intro pos acc ms _ hp
    exact absurd hp (by simp [parseLoop])
  | succ f ih =>
    intro pos acc ms hacc hp
    simp only [parseLoop] at hp
    split at hp
    · injection hp with h
      subst h
      intro p hp'
      exact hacc p (List.mem_reverse.mp hp')
    · split at hp
      · exact absurd hp (by simp)
      · split at hp
        · exact absurd hp (by simp)
        · split at hp
          · exact absurd hp (by simp)
          · split at hp
            · split at hp
              · exact absurd hp (by simp)
              · split at hp
                · exact ih _ _ _ hacc hp
                · next hspec =>
                    refine ih _ _ _ ?_ hp
                    intro p hp'
                    rcases List.mem_cons.mp hp' with h1 | h1
                    · subst h1; simpa using hspec
                    · exact hacc p h1
            · split at hp
              · exact ih _ _ _ hacc hp
              · next hspec =>
                  refine ih _ _ _ ?_ hp
                  intro p hp'
                  rcases List.mem_cons.mp hp' with h1 | h1
                  · subst h1; simpa using hspec
                  · exact hacc p h1

/-- C8: the reader never yields a record whose resolved name is special
(the reserved symbol-table stem, either reserved string-table name, or
empty); such records are consumed with the stream advancing past their
payload, as the concrete archive whose symbol-table member precedes a normal
member shows: only the normal member is yielded. -/
theorem C8_special_members_filtered :
    (∀ (bs : List Nat) (ms : List (Name × List Nat)),
      parse_ar bs = Except.ok ms → ∀ p ∈ ms, isSpecial p.1 = false)
    ∧ parse_ar exSymdefArchive = Except.ok [([97, 46, 111], [1, 2, 3, 4])] := by
  constructor
  · intro bs ms hp
    rw [parse_ar] at hp
    split at hp
    · exact parseLoop_no_special bs _ _ _ _ (by intro p hp'; cases hp') hp
    · exact absurd hp (by simp)
  · decide

/-- Witness for C8: applying the filtering theorem to the concrete archive
shows the yielded member is not special. -/
theorem C8_special_members_filtered_witness :
    isSpecial ([97, 46, 111] : Name) = false :=
  C8_special_members_filtered.1 exSymdefArchive [([97, 46, 111], [1, 2, 3, 4])]
    (by decide) ([97, 46, 111], [1, 2, 3, 4]) (by decide)

/-- When fewer than 60 bytes remain at an even position, the reader loop
stops cleanly and returns what it accumulated. -/
lemma parseLoop_short_header (bs : List Nat) (fuel pos : Nat)
    (acc : List (Name × List Nat))
    (hpos : ¬ pos % 2 = 1) (hshort : (readAt bs pos 60).length < 60) :
    parseLoop bs (fuel + 1) pos acc = Except.ok acc.reverse := by
  have halign : alignPos bs pos = pos := by rw [alignPos, if_neg hpos]
  simp only [parseLoop, halign, if_pos hshort]

/-- C5 counterexample: an archive whose magic is followed by a single stray
byte (fewer than 60 bytes where a header is expected) parses as a clean
empty archive and the whole run terminates successfully with exit status 0,
refuting that a truncated header is a fatal format error. -/
theorem C5_counterexample :
    parse_ar (arMagic ++ [120]) = Except.ok []
    ∧ (run ⟨3, arMagic ++ [120], none, true, true, []⟩).exitCode = 0 := by decide

/-- C5 amended: when fewer than 60 bytes remain after the magic where a
member header is expected, the reader treats this as clean end-of-archive
and parsing succeeds with an empty member list. -/
theorem C5_truncated_header_clean_eof (extra : List Nat) (h : extra.length < 60) :
    parse_ar (arMagic ++ extra) = Except.ok [] := by
  have h8 : arMagic.length = 8 := rfl
  have htake : (arMagic ++ extra).take 8 = arMagic := by
    rw [← h8, List.take_left]
  have hdrop : (arMagic ++ extra).drop 8 = extra := by
    rw [← h8, List.drop_left]
  rw [parse_ar, if_pos htake]
  have hshort : (readAt (arMagic ++ extra) 8 60).length < 60 := by
    rw [readAt, hdrop, List.length_take]
    omega
  exact parseLoop_short_header _ _ _ _ (by decide) hshort

/-- Witness for the amended C5 at a two-byte remainder. -/
theorem C5_truncated_header_clean_eof_witness :
    ([120, 121] : List Nat).length < 60
    ∧ parse_ar (arMagic ++ [120, 121]) = Except.ok [] :=
  ⟨by decide, C5_truncated_header_clean_eof [120, 121] (by decide)⟩

/-- C4 counterexample: an undecodable byte (255) at the start of the 16-byte
short name field makes the reader abort with a strict decode error, refuting
that name decoding never raises for the short name field. -/
theorem C4_counterexample :
    parse_ar (arMagic ++ badNameHeader) = Except.error ParseErr.nameDecode := by
  decide

/-- C4 amended: permissive replacement decoding applies only to the BSD
extended-name bytes taken from the payload: parsing the extended-name
archive succeeds for every value of the four name bytes (undecodable bytes
are replaced with U+FFFD, and the member is merely filtered when the
resolved name happens to be special), whereas the 16-byte short name field
is decoded strictly and undecodable bytes there abort the run. -/
theorem C4_extended_name_never_fails (b1 b2 b3 b4 : Nat) :
    ∃ ms, parse_ar (bsdArchive b1 b2 b3 b4) = Except.ok ms := by
  by_cases hs : isSpecial (decodeReplace (rstripNul [b1, b2, b3, b4])) = true
  · refine ⟨[], ?_⟩
    simp [parse_ar, bsdArchive, arMagic, parseLoop, readAt, alignPos, decodeAscii,
      stripWs, rstrip, pyWs, parseNatDigits, isDigit, hs]
  · refine ⟨[(decodeReplace (rstripNul [b1, b2, b3, b4]), [5, 6])], ?_⟩
    simp [parse_ar, bsdArchive, arMagic, parseLoop, readAt, alignPos, decodeAscii,
      stripWs, rstrip, pyWs, parseNatDigits, isDigit, hs]

/-- Witness for the amended C4: parsing succeeds even when the extended-name
bytes start with the undecodable byte 255. -/
theorem C4_extended_name_never_fails_witness :
    ∃ ms, parse_ar (bsdArchive 255 97 98 99) = Except.ok ms :=
  C4_extended_name_never_fails 255 97 98 99

end Phemy
